import Mathlib

/- Verification development for the fuzzbench trial runner
   (src/experiment/runner.py): heuristic output-corpus directory resolution,
   incremental timestamp-based corpus archiving, seed-corpus preparation,
   and the supervisor/sync control flow. Python functions are shallowly
   embedded as pure Lean functions over an explicit snapshot of the
   directory tree; machine floats (mtimes, the `-inf` watermark) are
   modelled as `WithBot Int`. -/

/-- A filesystem path, represented by the list of its name components
relative to the filesystem root; `os.path.join(d, n)` becomes `d ++ [n]`.
All paths are taken to be already absolute, matching the
`os.path.abspath` normalisation performed by the runner. -/
abbrev FPath := List String

/-- A read-only snapshot of the directory tree the runner inspects:
the directories, and the regular files paired with their integer
last-modified times (`os.stat(...).st_mtime`). -/
structure FSys where
  dirs : List FPath
  files : List (FPath × Int)

/-- Models `os.path.isdir`. -/
def FSys.isDir (fs : FSys) (p : FPath) : Bool := fs.dirs.contains p

/-- Models `os.path.exists`: the path names a directory or a regular file. -/
def pathExists (fs : FSys) (p : FPath) : Bool :=
  fs.dirs.contains p || fs.files.any (fun e => e.1 == p)

/-- The test that `child` is an entry directly inside directory `parent`:
one component longer, and extending `parent`. -/
def isChildPath (parent child : FPath) : Bool :=
  child.length == parent.length + 1 && parent.isPrefixOf child

/-- The strong AFL marker entries of `_looks_like_afl_dir`
(runner.py line 74). -/
def AFL_MARKERS : List String := ["fuzzer_stats", "plot_data", "cmdline", "target_hash"]

/-- Models Python `name.startswith('.')` on a single name component. -/
def isHiddenName (n : String) : Bool :=
  match n.data with
  | [] => false
  | c :: _ => c == '.'

/-- Embeds `_looks_like_afl_dir` (runner.py lines 59-87): `d` must be a
directory containing a `queue` subdirectory, and either one of the marker
entries exists under `d`, or `queue` directly contains at least one
regular file whose name does not start with a dot (`entry.is_file` and
not `entry.name.startswith('.')`). -/
def looks_like_afl_dir (fs : FSys) (d : FPath) : Bool :=
  fs.isDir d &&
  (fs.isDir (d ++ ["queue"]) &&
   (AFL_MARKERS.any (fun m => pathExists fs (d ++ [m])) ||
    fs.files.any (fun e =>
      isChildPath (d ++ ["queue"]) e.1 && !(isHiddenName (e.1.getLastD "")))))

/-- Lexicographic code-point comparison of character lists; Python's
`sorted` compares strings exactly this way. -/
def lexLe : List Char → List Char → Bool
  | [], _ => true
  | _ :: _, [] => false
  | a :: as, b :: bs => if a < b then true else if b < a then false else lexLe as bs

/-- The string ordering used to model Python `sorted` on strings. -/
def strLeProp (a b : String) : Prop := lexLe a.data b.data = true

instance : DecidableRel strLeProp :=
  fun a b => inferInstanceAs (Decidable (lexLe a.data b.data = true))

instance : IsTotal String strLeProp where
  total := by
    have key : ∀ a b : List Char, lexLe a b = true ∨ lexLe b a = true := by
      intro a
      induction a with
      | nil => intro b; left; rfl
      | cons x xs ih =>
        intro b
        cases b with
        | nil => right; rfl
        | cons y ys =>
          by_cases hxy : x < y
          · left; simp [lexLe, hxy]
          · by_cases hyx : y < x
            · right; simp [lexLe, hyx]
            · simpa [lexLe, hxy, hyx] using ih ys
    intro a b
    exact key a.data b.data

instance : IsTrans String strLeProp where
  trans := by
    have key : ∀ a b c : List Char,
        lexLe a b = true → lexLe b c = true → lexLe a c = true := by
      intro a
      induction a with
      | nil => intro b c _ _; rfl
      | cons x xs ih =>
        intro b c hab hbc
        cases b with
        | nil => simp [lexLe] at hab
        | cons y ys =>
          cases c with
          | nil => simp [lexLe] at hbc
          | cons z zs =>
            by_cases hxy : x < y
            · by_cases hyz : y < z
              · simp [lexLe, lt_trans hxy hyz]
              · by_cases hzy : z < y
                · simp [lexLe, hyz, hzy] at hbc
                · have hyzeq : y = z := le_antisymm (not_lt.mp hzy) (not_lt.mp hyz)
                  subst hyzeq
                  simp [lexLe, hxy]
            · by_cases hyx : y < x
              · simp [lexLe, hxy, hyx] at hab
              · have hxyeq : x = y := le_antisymm (not_lt.mp hyx) (not_lt.mp hxy)
                subst hxyeq
                simp only [lexLe, lt_irrefl, if_false] at hab
                by_cases hxz : x < z
                · simp [lexLe, hxz]
                · by_cases hzx : z < x
                  · simp [lexLe, hxz, hzx] at hbc
                  · simp only [lexLe, lt_irrefl, if_false] at hbc ⊢
                    simp only [hxz, hzx, if_false] at hbc ⊢
                    exact ih ys zs hab hbc
    intro a b c hab hbc
    exact key a.data b.data c.data hab hbc

instance : IsAntisymm String strLeProp where
  antisymm := by
    have key : ∀ a b : List Char,
        lexLe a b = true → lexLe b a = true → a = b := by
      intro a
      induction a with
      | nil =>
        intro b _ hba
        cases b with
        | nil => rfl
        | cons y ys => simp [lexLe] at hba
      | cons x xs ih =>
        intro b hab hba
        cases b with
        | nil => simp [lexLe] at hab
        | cons y ys =>
          by_cases hxy : x < y
          · simp [lexLe, hxy, lt_asymm hxy] at hba
          · by_cases hyx : y < x
            · simp [lexLe, hxy, hyx] at hab
            · have hxyeq : x = y := le_antisymm (not_lt.mp hyx) (not_lt.mp hxy)
              subst hxyeq
              simp only [lexLe, lt_irrefl, if_false] at hab hba
              rw [ih ys hab hba]
    intro a b hab hba
    exact String.ext (key a.data b.data hab hba)

/-- Models Python `sorted` on a list of strings. -/
def sortStrings (l : List String) : List String := List.insertionSort strLeProp l

/-- The priority list of AFL++ parallel-instance layout names checked
first by the resolver (runner.py line 99). -/
def aflLayoutNames : List String := ["default", "main", "master"]

/-- The names of the immediate children (directories and regular files)
of directory `p` in the snapshot. -/
def childNames (fs : FSys) (p : FPath) : List String :=
  fs.dirs.filterMap (fun d => if isChildPath p d then d.getLast? else none) ++
  fs.files.filterMap (fun e => if isChildPath p e.1 then e.1.getLast? else none)

/-- Models `sorted(glob.glob(os.path.join(p, '*')))` (runner.py line 109):
`glob` with pattern `*` skips entries whose name starts with a dot, and
sorting the joined paths, which all share the prefix `p`, orders them by
child name. -/
def globStar (fs : FSys) (p : FPath) : List FPath :=
  (sortStrings ((childNames fs p).filter (fun n => !(isHiddenName n)))).map
    (fun n => p ++ [n])

/-- Embeds `_find_real_output_corpus_dir` (runner.py lines 90-115):
an empty (falsy) path is returned unchanged; otherwise the first of
`default`, `main`, `master` that looks like an AFL output directory wins,
then the nominal path itself, then the first entry of the sorted `glob`
listing that qualifies, and finally the nominal path unchanged. -/
def find_real_output_corpus_dir (fs : FSys) (p : FPath) : FPath :=
  if p.isEmpty then p
  else
    match (aflLayoutNames.map (fun n => p ++ [n])).find?
        (fun c => looks_like_afl_dir fs c) with
    | some c => c
    | none =>
      if looks_like_afl_dir fs p then p
      else
        match (globStar fs p).find? (fun c => looks_like_afl_dir fs c) with
        | some c => c
        | none => p

/-- Follows the words of claim C3's decision procedure: after the layout
names and the nominal path itself, try "the first immediate child of
nominalPath, in sorted order, that passes" - with no exclusion of hidden
children. Written from the specification, to be compared with
`find_real_output_corpus_dir`. -/
def resolveSpecClaim (fs : FSys) (p : FPath) : FPath :=
  if p.isEmpty then p
  else
    match (aflLayoutNames.map (fun n => p ++ [n])).find?
        (fun c => looks_like_afl_dir fs c) with
    | some c => c
    | none =>
      if looks_like_afl_dir fs p then p
      else
        match ((sortStrings (childNames fs p)).map (fun n => p ++ [n])).find?
            (fun c => looks_like_afl_dir fs c) with
        | some c => c
        | none => p

/-- The claim C3 decision procedure amended minimally: in the
immediate-children step only children whose name does not start with a
dot are considered (in sorted order), matching the `glob('*')` semantics
of the code. Written from the amended specification words: the children
are sorted first and the hidden ones then discarded. -/
def resolveSpecAmended (fs : FSys) (p : FPath) : FPath :=
  if p.isEmpty then p
  else
    match (aflLayoutNames.map (fun n => p ++ [n])).find?
        (fun c => looks_like_afl_dir fs c) with
    | some c => c
    | none =>
      if looks_like_afl_dir fs p then p
      else
        match (((sortStrings (childNames fs p)).filter
              (fun n => !(isHiddenName n))).map (fun n => p ++ [n])).find?
            (fun c => looks_like_afl_dir fs c) with
        | some c => c
        | none => p

/-- A nominal output directory whose only plausible AFL child is the
hidden directory `.h` containing `queue/f`: the code's `glob('*')` never
sees it. -/
def fsHiddenChild : FSys :=
  ⟨[["out"], ["out", ".h"], ["out", ".h", "queue"]],
   [(["out", ".h", "queue", "f"], 0)]⟩

/-- A nominal output directory whose resolved child `o/default` itself
contains a populated `default/queue`, so resolving a second time descends
further. -/
def fsNested : FSys :=
  ⟨[["o"], ["o", "default"], ["o", "default", "queue"],
    ["o", "default", "default"], ["o", "default", "default", "queue"]],
   [(["o", "default", "queue", "f"], 0),
    (["o", "default", "default", "queue", "g"], 0)]⟩

/-- A resolved directory with no `default`, `main` or `master` child that
qualifies, used to witness the amended idempotence theorem. -/
def fsSimple : FSys :=
  ⟨[["o"], ["o", "default"], ["o", "default", "queue"]],
   [(["o", "default", "queue", "f"], 0)]⟩

/-- Claim C3 as stated is false on the code: on `fsHiddenChild` the
decision procedure described by the claim returns the hidden child
`out/.h` (it is the first immediate child, in sorted order, passing the
validity test), while `_find_real_output_corpus_dir` returns `out`
unchanged because `glob('*')` skips dot entries. -/
theorem resolver_skips_hidden_child_cex :
    find_real_output_corpus_dir fsHiddenChild ["out"] ≠
      resolveSpecClaim fsHiddenChild ["out"] := by decide

/-- Claim C8 as stated is false on the code: resolution is not idempotent.
On `fsNested`, resolving `o` yields `o/default`, but resolving
`o/default` again yields `o/default/default`. -/
theorem resolver_not_idempotent_cex :
    find_real_output_corpus_dir fsNested (find_real_output_corpus_dir fsNested ["o"]) ≠
      find_real_output_corpus_dir fsNested ["o"] := by decide

/-- The element subdirectories scanned by the archiver
(runner.py line 506). -/
def targetSubdirs : List String := ["queue", "crashes", "hangs"]

/-- Every directory on the way from `t` (inclusive) down to the parent of
`p` exists in the snapshot: this is what makes a file reachable by
`os.walk(t)`. -/
def dirsOnPathFrom (fs : FSys) (t p : FPath) : Bool :=
  (List.range p.length).all (fun k => decide (k < t.length) || fs.dirs.contains (p.take k))

/-- The files yielded by `os.walk(t)` (with their mtimes): entries of the
snapshot strictly below `t` all of whose ancestor directories from `t`
down exist. -/
def walkFiles (fs : FSys) (t : FPath) : List (FPath × Int) :=
  fs.files.filter (fun e =>
    t.isPrefixOf e.1 && decide (t.length < e.1.length) && dirsOnPathFrom fs t e.1)

/-- Embeds `iter_targeted_corpus_elements` (runner.py lines 499-515):
walk `queue`, `crashes`, `hangs` under the corpus root, skipping a target
subdirectory that does not exist; the lazy generator becomes a list whose
order the archival claims never depend on. -/
def iter_targeted_corpus_elements (fs : FSys) (corpusDir : FPath) : List (FPath × Int) :=
  targetSubdirs.flatMap (fun sub =>
    if fs.isDir (corpusDir ++ [sub]) then walkFiles fs (corpusDir ++ [sub]) else [])

/-- One iteration of the archiving loop (runner.py lines 443-456): skip a
file whose mtime is not beyond the watermark `w`; otherwise record its
path relative to the resolved root in the archive and bump the running
maximum mtime. -/
def archiveStep (w : WithBot Int) (rootLen : Nat)
    (acc : List FPath × WithBot Int) (e : FPath × Int) : List FPath × WithBot Int :=
  if (e.2 : WithBot Int) ≤ w then acc
  else (acc.1 ++ [e.1.drop rootLen], max acc.2 (e.2 : WithBot Int))

/-- Embeds `TrialRunner.archive_corpus` (runner.py lines 423-461):
resolve the real corpus root, iterate the targeted elements, and return
the archive contents (as root-relative paths) together with the new
watermark. -/
def archive_corpus (fs : FSys) (outputCorpus : FPath) (lastArchiveTime : WithBot Int) :
    List FPath × WithBot Int :=
  let root := find_real_output_corpus_dir fs outputCorpus
  (iter_targeted_corpus_elements fs root).foldl
    (archiveStep lastArchiveTime root.length) ([], lastArchiveTime)

/-- The initial watermark set by `TrialRunner.__init__` (runner.py
line 304): `-float('inf')`, modelled as the bottom of `WithBot Int`. -/
def initial_last_archive_time : WithBot Int := ⊥

/-- The largest mtime occurring in a list of walked entries (bottom when
the list is empty). -/
def mtimesMax (l : List (FPath × Int)) : WithBot Int :=
  l.foldl (fun m e => max m (e.2 : WithBot Int)) ⊥

/-- A populated corpus layout used to witness the archiving theorem. -/
def fsArch : FSys :=
  ⟨[["c"], ["c", "queue"]], [(["c", "queue", "k"], 5), (["c", "stats"], 9)]⟩

/-- Byte content of a seed file, as the list of its byte values. -/
abbrev Content := List Nat

/-- The state of the seed directory: its regular files (paths relative to
the seed directory) with their byte contents. The model covers seed trees
in which no file path extends another file path and no hash destination
names a directory; the amended preparation theorem carries these
conditions as hypotheses. -/
abbrev SeedFS := List (FPath × Content)

/-- The per-element size limit in bytes (runner.py line 49). -/
def CORPUS_ELEMENT_BYTES_LIMIT : Nat := 1 * 1024 * 1024

/-- Models reading the file at `p`: `none` when no such file exists. -/
def lookupFile : SeedFS → FPath → Option Content
  | [], _ => none
  | e :: t, p => if e.1 = p then some e.2 else lookupFile t p

/-- Models `os.remove p`. -/
def eraseFile (fs : SeedFS) (p : FPath) : SeedFS :=
  fs.filter (fun e => !(e.1 == p))

/-- Writing content `c` at path `p`, replacing any file already there. -/
def writeFile (fs : SeedFS) (p : FPath) (c : Content) : SeedFS :=
  eraseFile fs p ++ [(p, c)]

/-- Models `shutil.move src dst` for a regular-file destination on a
single filesystem: it boils down to `os.rename`, which silently replaces
an existing file at `dst`. -/
def moveFile (fs : SeedFS) (src dst : FPath) : SeedFS :=
  match lookupFile fs src with
  | none => fs
  | some c => writeFile (eraseFile fs src) dst c

/-- The order in which `os.walk(seedDir)` (runner.py line 130) presents
the files: the top directory's listing is taken first, so its files are
processed before any file of a subdirectory, and files moved to the top
level during the walk are never revisited because each directory's
listing is snapshotted when the walk first reaches it. The scandir order
inside each directory is arbitrary; the model takes it from the list
order of the snapshot. -/
def walkOrder (fs : SeedFS) : List FPath :=
  (fs.filter (fun e => e.1.length == 1)).map (fun e => e.1) ++
  (fs.filter (fun e => !(e.1.length == 1))).map (fun e => e.1)

/-- One iteration of the `_clean_seed_corpus` walk (runner.py lines
130-145): read the file's current state (skip it if gone), delete it when
it exceeds the size limit, and otherwise move it to the top-level path
named by the hash of its content (`utils.file_hash` is external and
becomes the parameter `h`). -/
def cleanStep (h : Content → String) (fs : SeedFS) (p : FPath) : SeedFS :=
  match lookupFile fs p with
  | none => fs
  | some c =>
    if CORPUS_ELEMENT_BYTES_LIMIT < c.length then eraseFile fs p
    else moveFile fs p [h c]

/-- The complete walk of `_clean_seed_corpus` over an existing seed
directory when the no-seeds override is unset. -/
def cleanWalk (h : Content → String) (fs : SeedFS) : SeedFS :=
  (walkOrder fs).foldl (cleanStep h) fs

/-- Embeds `_clean_seed_corpus` (runner.py lines 118-148): a missing seed
directory (`none`) is returned untouched before the no-seeds override is
even consulted; with the override set the directory is deleted and
recreated empty; otherwise the deduplicating walk runs. -/
def clean_seed_corpus (noSeeds : Bool) (h : Content → String)
    (seedDir : Option SeedFS) : Option SeedFS :=
  match seedDir with
  | none => none
  | some fs => if noSeeds then some [] else some (cleanWalk h fs)

/-- No two files of a seed snapshot share a path. -/
def pathsNodup (fs : SeedFS) : Prop := (fs.map (fun e => e.1)).Nodup

/-- The seed corpus of the clobbering counterexample: the small file `a`
hashes to the name of the other small file `x`, so moving `a` silently
overwrites `x` before `x` is processed. -/
def seedFsClobber : SeedFS := [(["a"], [1]), (["x"], [2])]

/-- The hash function of the clobbering counterexample; it is injective
on the contents present in `seedFsClobber`. -/
def hashClobber : Content → String := fun c => if c == [1] then "x" else "y"

/-- The seed corpus witnessing the amended preparation theorem: two
duplicate seeds, one of them nested. -/
def seedFsGood : SeedFS := [(["a"], [1]), (["s", "b"], [1])]

/-- The hash function of the witness. -/
def hashGood : Content → String := fun _ => "z"

/-- The retry count of the sync-side retry policy (runner.py line 44). -/
def NUM_RETRIES : Nat := 3

/-- The fixed delay in seconds between retry attempts (runner.py
line 45). -/
def RETRY_DELAY : Nat := 3

/-- Modelled from the spec: `common.retry.wrap` is an external
collaborator ("RetryPolicy (external) - wraps an operation with bounded
retry-with-delay"). `retryAux delay op attempt n` performs up to `n`
further attempts, numbering them from `attempt`, sleeping `delay`
seconds between consecutive attempts, and returns the first success or
the last error together with the total time slept; `op k` abstracts the
outcome of the k-th attempt of the wrapped operation. -/
def retryAux (delay : Nat) (op : Nat → Except String Unit) :
    Nat → Nat → Except String Unit × Nat
  | _, 0 => (Except.error "retry: no attempts", 0)
  | attempt, n + 1 =>
    match op attempt with
    | Except.ok _ => (Except.ok (), 0)
    | Except.error e =>
      if n = 0 then (Except.error e, 0)
      else
        ((retryAux delay op (attempt + 1) n).1,
         delay + (retryAux delay op (attempt + 1) n).2)

/-- Modelled from the spec: bounded retry with a fixed delay, `tries`
attempts in total. -/
def retry_wrap (tries delay : Nat) (op : Nat → Except String Unit) :
    Except String Unit × Nat :=
  retryAux delay op 0 tries

/-- Embeds `TrialRunner.archive_and_save_corpus` (runner.py lines
474-479): the archive-and-upload step of one cycle, wrapped in the
bounded retry; failures of the underlying archive and remote operations
on the k-th attempt are abstracted as `archiveOp k`. -/
def archive_and_save_corpus (archiveOp : Nat → Except String Unit) :
    Except String Unit × Nat :=
  retry_wrap NUM_RETRIES RETRY_DELAY archiveOp

/-- Embeds `TrialRunner.save_results` (runner.py lines 481-489): the
results-directory copy to remote storage, wrapped in the bounded retry. -/
def save_results (resultsOp : Nat → Except String Unit) :
    Except String Unit × Nat :=
  retry_wrap NUM_RETRIES RETRY_DELAY resultsOp

/-- What one `do_sync` call logs. -/
inductive LogEvent where
  | syncFailed (cycle : Nat)
  | finishedSync
deriving DecidableEq

/-- The observable result of one `do_sync` call: whether an exception
escaped the call, and what was logged. -/
structure SyncResult where
  outcome : Except String Unit
  logs : List LogEvent

/-- Embeds `TrialRunner.do_sync` (runner.py lines 386-394): run the
retried archive-and-upload step, then the retried results copy; any
exception raised by either is caught by the enclosing `try`, logged with
the current cycle number, and never re-raised. -/
def do_sync (cycle : Nat) (archiveOp resultsOp : Nat → Except String Unit) :
    SyncResult :=
  match (archive_and_save_corpus archiveOp).1 with
  | Except.error _ => ⟨Except.ok (), [LogEvent.syncFailed cycle]⟩
  | Except.ok _ =>
    match (save_results resultsOp).1 with
    | Except.error _ => ⟨Except.ok (), [LogEvent.syncFailed cycle]⟩
    | Except.ok _ => ⟨Except.ok (), [LogEvent.finishedSync]⟩

/-- The observable outcome of `run_fuzzer` (runner.py lines 231-281):
whether a fuzz process was launched, the state of the global
`fuzzer_errored_out` flag after the call, and whether the missing-binary
failure was logged. -/
structure RunFuzzerResult where
  launched : Bool
  erroredOut : Bool
  loggedBinaryMissing : Bool
deriving DecidableEq

/-- Embeds the control flow of `run_fuzzer`: a missing target binary is
logged and the function returns without starting anything and without
touching the errored flag; otherwise the fuzz command runs and a
`CalledProcessError` (nonzero exit, `procNonzero`) sets the flag without
raising past the handler. -/
def run_fuzzer (binaryFound procNonzero : Bool) : RunFuzzerResult :=
  if binaryFound then ⟨true, procNonzero, false⟩
  else ⟨false, false, true⟩

/-- The observable events of `TrialRunner.conduct_trial` (runner.py
lines 342-368), in program order. -/
inductive TrialEvent where
  | sync (cycle : Nat)
  | finalSync
  | joinFuzzThread
deriving DecidableEq

/-- Embeds the synchronisation schedule of `conduct_trial`: one sync
before fuzzing starts (cycle 0), one sync per loop cycle while the fuzz
thread is alive, then unconditionally one final sync followed by the
join. The fuzz-outcome parameters do not influence the schedule,
mirroring that the loop and the final sync never consult the errored
flag. -/
def conduct_trial_events (_binaryFound _procNonzero : Bool) (loopCycles : Nat) :
    List TrialEvent :=
  TrialEvent.sync 0 ::
    ((List.range loopCycles).map (fun i => TrialEvent.sync (i + 1)) ++
     [TrialEvent.finalSync, TrialEvent.joinFuzzThread])

/-- Embeds `main` (runner.py lines 542-554): an uncaught exception from
the trial propagates (`experiment_main` logs and re-raises), and
otherwise the exit code is 1 exactly when the global errored flag was
set by `run_fuzzer`. -/
def runnerMain (binaryFound procNonzero : Bool) (trialExc : Option String) :
    Except String Nat :=
  match trialExc with
  | some e => Except.error e
  | none =>
    Except.ok (if (run_fuzzer binaryFound procNonzero).erroredOut then 1 else 0)

/-- Embeds `TrialRunner.sleep_until_next_sync` (runner.py lines 370-384):
returns the sleep duration together with whether the negative-sleep
warning was logged. Times are modelled as integers; the external
`experiment_utils.get_snapshot_seconds()` is the parameter
`snapshotSeconds` and `time.time()` is `now`. -/
def sleep_until_next_sync (snapshotSeconds : Int) (lastSyncTime : Option Int)
    (now : Int) : Int × Bool :=
  match lastSyncTime with
  | some t =>
    if t + snapshotSeconds - now < 0 then (0, true)
    else (t + snapshotSeconds - now, false)
  | none => (snapshotSeconds, false)

/-- Sorting commutes with filtering: discarding the hidden names after
sorting gives the same list as sorting the visible names. -/
theorem sortStrings_filter (q : String → Bool) (l : List String) :
    sortStrings (l.filter q) = (sortStrings l).filter q := by
  apply List.eq_of_perm_of_sorted (r := strLeProp)
  · exact (List.perm_insertionSort _ _).trans
      ((List.perm_insertionSort strLeProp l).filter q).symm
  · exact List.sorted_insertionSort _ _
  · exact (List.sorted_insertionSort strLeProp l).filter q

/-- Claim C3, amended: for every nominal path, the code implements the
claimed ordered decision procedure with the child-scanning step
restricted to non-hidden immediate children (in sorted order), because
`glob('*')` skips dot entries. -/
theorem resolver_decision_procedure_amended (fs : FSys) (p : FPath) :
    find_real_output_corpus_dir fs p = resolveSpecAmended fs p := by
  unfold find_real_output_corpus_dir resolveSpecAmended globStar
  rw [sortStrings_filter]

/-- A directory that already looks like an AFL output directory, and none
of whose layout-named children qualifies, resolves to itself. -/
theorem find_fixed_of_looks (fs : FSys) (r : FPath)
    (hr : looks_like_afl_dir fs r = true)
    (h : ∀ n ∈ aflLayoutNames, looks_like_afl_dir fs (r ++ [n]) = false) :
    find_real_output_corpus_dir fs r = r := by
  cases he : r.isEmpty
  · have hnone : (aflLayoutNames.map (fun n => r ++ [n])).find?
        (fun c => looks_like_afl_dir fs c) = none := by
      rw [List.find?_eq_none]
      intro c hc
      obtain ⟨n, hn, rfl⟩ := List.mem_map.mp hc
      simp [h n hn]
    simp [find_real_output_corpus_dir, he, hnone, hr]
  · simp [find_real_output_corpus_dir, he]

/-- The resolver either leaves the path unchanged or returns a directory
passing the validity test. -/
theorem find_looks_or_eq (fs : FSys) (p : FPath) :
    find_real_output_corpus_dir fs p = p ∨
      looks_like_afl_dir fs (find_real_output_corpus_dir fs p) = true := by
  unfold find_real_output_corpus_dir
  split
  · left; rfl
  · split
    · rename_i c hc
      right
      exact List.find?_some hc
    · split
      · rename_i hp
        right
        exact hp
      · split
        · rename_i c hc
          right
          exact List.find?_some hc
        · left; rfl

/-- Claim C8, amended: resolution is side-effect-free (it is a pure
function of the snapshot, built only from read operations), and it is
idempotent whenever the resolved directory has no child named `default`,
`main` or `master` that itself passes the validity test - the situation
the counterexample `resolver_not_idempotent_cex` violates. -/
theorem resolver_idempotent_amended (fs : FSys) (p : FPath)
    (h : ∀ n ∈ aflLayoutNames,
      looks_like_afl_dir fs (find_real_output_corpus_dir fs p ++ [n]) = false) :
    find_real_output_corpus_dir fs (find_real_output_corpus_dir fs p) =
      find_real_output_corpus_dir fs p := by
  rcases find_looks_or_eq fs p with he | hl
  · rw [he]
    exact he
  · exact find_fixed_of_looks fs _ hl h

/-- Witness for the amended idempotence theorem on a concrete layout. -/
theorem resolver_idempotent_amended_witness :
    (∀ n ∈ aflLayoutNames,
      looks_like_afl_dir fsSimple
        (find_real_output_corpus_dir fsSimple ["o"] ++ [n]) = false) ∧
    find_real_output_corpus_dir fsSimple
        (find_real_output_corpus_dir fsSimple ["o"]) =
      find_real_output_corpus_dir fsSimple ["o"] :=
  ⟨by decide, resolver_idempotent_amended fsSimple ["o"] (by decide)⟩

/-- The archive part of the fold is the filter of the walked elements by
"mtime beyond the watermark", mapped to root-relative paths. -/
theorem archive_foldl_fst (w : WithBot Int) (rootLen : Nat) (l : List (FPath × Int))
    (acc : List FPath) (m : WithBot Int) :
    (l.foldl (archiveStep w rootLen) (acc, m)).1 =
      acc ++ l.filterMap (fun e =>
        if w < (e.2 : WithBot Int) then some (e.1.drop rootLen) else none) := by
  induction l generalizing acc m with
  | nil => simp
  | cons e l ih =>
    by_cases hc : (e.2 : WithBot Int) ≤ w
    · have hnlt : ¬ w < (e.2 : WithBot Int) := not_lt.mpr hc
      simp only [List.foldl_cons, archiveStep, if_pos hc, List.filterMap_cons,
        if_neg hnlt]
      exact ih acc m
    · have hlt : w < (e.2 : WithBot Int) := not_le.mp hc
      simp only [List.foldl_cons, archiveStep, if_neg hc, List.filterMap_cons,
        if_pos hlt]
      rw [ih]
      simp [List.append_assoc]

/-- Projection of the archiving fold onto the running-maximum component. -/
theorem archive_foldl_snd (w : WithBot Int) (rootLen : Nat) (l : List (FPath × Int))
    (acc : List FPath) (m : WithBot Int) :
    (l.foldl (archiveStep w rootLen) (acc, m)).2 =
      l.foldl (fun m' e =>
        if (e.2 : WithBot Int) ≤ w then m' else max m' (e.2 : WithBot Int)) m := by
  induction l generalizing acc m with
  | nil => rfl
  | cons e l ih =>
    by_cases hc : (e.2 : WithBot Int) ≤ w
    · simp only [List.foldl_cons, archiveStep, if_pos hc]
      exact ih acc m
    · simp only [List.foldl_cons, archiveStep, if_neg hc]
      exact ih _ _

/-- Once the accumulator is at least the watermark, skipping the elements
at or below the watermark does not change the running maximum. -/
theorem foldl_max_skip (w : WithBot Int) (l : List (FPath × Int)) (m : WithBot Int)
    (hm : w ≤ m) :
    l.foldl (fun m' e =>
        if (e.2 : WithBot Int) ≤ w then m' else max m' (e.2 : WithBot Int)) m =
      l.foldl (fun m' e => max m' (e.2 : WithBot Int)) m := by
  induction l generalizing m with
  | nil => rfl
  | cons e l ih =>
    by_cases hc : (e.2 : WithBot Int) ≤ w
    · simp only [List.foldl_cons, if_pos hc]
      have hmax : max m (e.2 : WithBot Int) = m := max_eq_left (le_trans hc hm)
      rw [hmax]
      exact ih m hm
    · simp only [List.foldl_cons, if_neg hc]
      exact ih _ (le_trans hm (le_max_left _ _))

/-- A running maximum starting from `m` factors through the maximum
starting from bottom. -/
theorem foldl_max_factor (l : List (FPath × Int)) (m : WithBot Int) :
    l.foldl (fun m' e => max m' (e.2 : WithBot Int)) m = max m (mtimesMax l) := by
  suffices h : ∀ (l : List (FPath × Int)) (a : WithBot Int),
      l.foldl (fun m' e => max m' (e.2 : WithBot Int)) a =
        max a (l.foldl (fun m' e => max m' (e.2 : WithBot Int)) ⊥) by
    exact h l m
  intro l
  induction l with
  | nil => intro a; simp
  | cons e l ih =>
    intro a
    simp only [List.foldl_cons]
    rw [ih (max a (e.2 : WithBot Int)), ih (max ⊥ (e.2 : WithBot Int))]
    rw [max_eq_right (bot_le : (⊥ : WithBot Int) ≤ (e.2 : WithBot Int)), max_assoc]

/-- Claim C2: the watermark starts at negative infinity, and every call to
`archive_corpus` replaces it by the maximum of the old watermark and the
largest mtime among the files considered in that cycle; in particular it
never decreases, even when no qualifying file exists. -/
theorem watermark_monotone_update :
    initial_last_archive_time = ⊥ ∧
    ∀ (fs : FSys) (outputCorpus : FPath) (w : WithBot Int),
      (archive_corpus fs outputCorpus w).2 =
        max w (mtimesMax (iter_targeted_corpus_elements fs
          (find_real_output_corpus_dir fs outputCorpus))) ∧
      w ≤ (archive_corpus fs outputCorpus w).2 := by
  refine ⟨rfl, fun fs oc w => ?_⟩
  have heq : (archive_corpus fs oc w).2 =
      max w (mtimesMax (iter_targeted_corpus_elements fs
        (find_real_output_corpus_dir fs oc))) := by
    unfold archive_corpus
    rw [archive_foldl_snd, foldl_max_skip w _ w le_rfl, foldl_max_factor]
  exact ⟨heq, by rw [heq]; exact le_max_left _ _⟩

/-- Membership in the walked files of a target directory, unfolded to the
raw snapshot conditions. -/
theorem mem_walkFiles (fs : FSys) (t : FPath) (e : FPath × Int) :
    e ∈ walkFiles fs t ↔
      e ∈ fs.files ∧ t <+: e.1 ∧ t.length < e.1.length ∧
        dirsOnPathFrom fs t e.1 = true := by
  simp [walkFiles, List.mem_filter, Bool.and_eq_true, decide_eq_true_eq,
    List.isPrefixOf_iff_prefix, and_assoc]

/-- Membership in the targeted element listing: the file comes from the
walk of one of the existing target subdirectories. -/
theorem mem_iter_targeted (fs : FSys) (root : FPath) (e : FPath × Int) :
    e ∈ iter_targeted_corpus_elements fs root ↔
      ∃ sub ∈ targetSubdirs, fs.isDir (root ++ [sub]) = true ∧
        e ∈ walkFiles fs (root ++ [sub]) := by
  simp only [iter_targeted_corpus_elements, List.mem_flatMap]
  constructor
  · rintro ⟨sub, hsub, he⟩
    by_cases hd : fs.isDir (root ++ [sub])
    · exact ⟨sub, hsub, hd, by simpa [hd] using he⟩
    · rw [if_neg hd] at he
      exact absurd he (List.not_mem_nil e)
  · rintro ⟨sub, hsub, hd, he⟩
    exact ⟨sub, hsub, by simpa [hd] using he⟩

/-- Claim C1: a root-relative path is in the produced archive exactly when
it denotes a file lying (recursively) under `queue`, `crashes` or `hangs`
of the resolved corpus root whose mtime is strictly beyond the watermark;
in particular nothing outside those three subdirectories is ever
archived, and each file is stored under its path relative to the
resolved root. The hypothesis states that the snapshot is well formed:
no path is both a file and a directory. -/
theorem archive_corpus_contents (fs : FSys) (outputCorpus : FPath) (w : WithBot Int)
    (arc : FPath)
    (hwf : ∀ e ∈ fs.files, fs.dirs.contains e.1 = false) :
    arc ∈ (archive_corpus fs outputCorpus w).1 ↔
      ∃ (sub : String) (rest : FPath) (mt : Int), sub ∈ targetSubdirs ∧ arc = sub :: rest ∧
        (find_real_output_corpus_dir fs outputCorpus ++ arc, mt) ∈ fs.files ∧
        w < (mt : WithBot Int) ∧
        fs.isDir (find_real_output_corpus_dir fs outputCorpus ++ [sub]) = true ∧
        dirsOnPathFrom fs (find_real_output_corpus_dir fs outputCorpus ++ [sub])
          (find_real_output_corpus_dir fs outputCorpus ++ arc) = true := by
  have hmem : arc ∈ (archive_corpus fs outputCorpus w).1 ↔
      ∃ e ∈ iter_targeted_corpus_elements fs
          (find_real_output_corpus_dir fs outputCorpus),
        w < (e.2 : WithBot Int) ∧
          e.1.drop (find_real_output_corpus_dir fs outputCorpus).length = arc := by
    unfold archive_corpus
    rw [archive_foldl_fst]
    simp only [List.nil_append, List.mem_filterMap, Option.ite_none_right_eq_some,
      Option.some.injEq]
  rw [hmem]
  constructor
  · rintro ⟨e, hiter, hgt, hdrop⟩
    rcases (mem_iter_targeted fs _ e).mp hiter with ⟨sub, hsub, hdir, hwalk⟩
    rcases (mem_walkFiles fs _ e).mp hwalk with ⟨hfile, hpre, _, hpath⟩
    rcases hpre with ⟨s, hs⟩
    have he1 : e.1 = (find_real_output_corpus_dir fs outputCorpus) ++ (sub :: s) := by
      rw [← hs, List.append_assoc, List.singleton_append]
    have harc : arc = sub :: s := by
      rw [← hdrop, he1, List.drop_left]
    refine ⟨sub, s, e.2, hsub, harc, ?_, hgt, hdir, ?_⟩
    · rw [harc, ← he1]
      exact hfile
    · rw [harc, ← he1]
      exact hpath
  · rintro ⟨sub, rest, mt, hsub, harc, hfile, hgt, hdir, hpath⟩
    refine ⟨(find_real_output_corpus_dir fs outputCorpus ++ arc, mt), ?_, hgt, ?_⟩
    · apply (mem_iter_targeted fs _ _).mpr
      refine ⟨sub, hsub, hdir, (mem_walkFiles fs _ _).mpr ⟨hfile, ?_, ?_, hpath⟩⟩
      · show find_real_output_corpus_dir fs outputCorpus ++ [sub] <+:
          find_real_output_corpus_dir fs outputCorpus ++ arc
        rw [harc]
        have hsplit : find_real_output_corpus_dir fs outputCorpus ++ sub :: rest =
            (find_real_output_corpus_dir fs outputCorpus ++ [sub]) ++ rest := by
          simp
        rw [hsplit]
        exact List.prefix_append _ _
      · have hrest : rest ≠ [] := by
          intro hnil
          subst hnil
          have : (find_real_output_corpus_dir fs outputCorpus ++ arc) =
              find_real_output_corpus_dir fs outputCorpus ++ [sub] := by
            rw [harc]
          rw [this] at hfile
          have := hwf _ hfile
          rw [FSys.isDir] at hdir
          rw [hdir] at this
          exact Bool.true_eq_false.mp this
        have : 0 < rest.length := List.length_pos.mpr hrest
        simp [harc]
        omega
    · exact List.drop_left _ _

/-- Witness for the archiving theorem: on the concrete layout `fsArch`
with watermark 0, the relative path `queue/k` is archived. -/
theorem archive_corpus_contents_witness :
    (∀ e ∈ fsArch.files, fsArch.dirs.contains e.1 = false) ∧
    (["queue", "k"] ∈ (archive_corpus fsArch ["c"] ((0 : Int) : WithBot Int)).1 ↔
      ∃ (sub : String) (rest : FPath) (mt : Int), sub ∈ targetSubdirs ∧ ["queue", "k"] = sub :: rest ∧
        (find_real_output_corpus_dir fsArch ["c"] ++ ["queue", "k"], mt) ∈ fsArch.files ∧
        ((0 : Int) : WithBot Int) < (mt : WithBot Int) ∧
        fsArch.isDir (find_real_output_corpus_dir fsArch ["c"] ++ [sub]) = true ∧
        dirsOnPathFrom fsArch (find_real_output_corpus_dir fsArch ["c"] ++ [sub])
          (find_real_output_corpus_dir fsArch ["c"] ++ ["queue", "k"]) = true) :=
  ⟨by decide,
   archive_corpus_contents fsArch ["c"] ((0 : Int) : WithBot Int) ["queue", "k"]
     (by decide)⟩



/-- A successful lookup comes from a member of the snapshot. -/
theorem lookupFile_eq_some_mem {fs : SeedFS} {p : FPath} {c : Content}
    (h : lookupFile fs p = some c) : (p, c) ∈ fs := by
  induction fs with
  | nil => exact absurd h (by simp [lookupFile])
  | cons e t ih =>
    rw [lookupFile] at h
    by_cases hep : e.1 = p
    · rw [if_pos hep] at h
      have he : e = (p, c) := by
        rw [← hep, ← Option.some.inj h]
      exact List.mem_cons.mpr (Or.inl he.symm)
    · rw [if_neg hep] at h
      exact List.mem_cons_of_mem e (ih h)

/-- Under unique paths, membership determines the lookup. -/
theorem mem_lookupFile {fs : SeedFS} (hnd : pathsNodup fs) {p : FPath} {c : Content}
    (h : (p, c) ∈ fs) : lookupFile fs p = some c := by
  induction fs with
  | nil => exact absurd h (List.not_mem_nil _)
  | cons e t ih =>
    have hnd' := List.nodup_cons.mp hnd
    rw [lookupFile]
    by_cases hep : e.1 = p
    · rw [if_pos hep]
      rcases List.mem_cons.mp h with rfl | ht
      · rfl
      · exact absurd (List.mem_map.mpr ⟨(p, c), ht, hep.symm⟩) hnd'.1
    · rw [if_neg hep]
      rcases List.mem_cons.mp h with rfl | ht
      · exact absurd rfl hep
      · exact ih hnd'.2 ht

/-- Unfolding a delete over a cons cell. -/
theorem eraseFile_cons (e : FPath × Content) (t : SeedFS) (p : FPath) :
    eraseFile (e :: t) p =
      if e.1 = p then eraseFile t p else e :: eraseFile t p := by
  rw [eraseFile, List.filter_cons]
  by_cases hep : e.1 = p
  · rw [if_pos hep, show (!(e.1 == p)) = false by simp [hep], if_neg (by simp)]
    rfl
  · rw [if_neg hep, show (!(e.1 == p)) = true by simp [hep], if_pos rfl]
    rfl

/-- Membership after a delete. -/
theorem mem_eraseFile {fs : SeedFS} {p q : FPath} {c : Content} :
    (q, c) ∈ eraseFile fs p ↔ (q, c) ∈ fs ∧ q ≠ p := by
  simp [eraseFile, List.mem_filter]

/-- Membership after a write. -/
theorem mem_writeFile {fs : SeedFS} {p q : FPath} {c c' : Content} :
    (q, c) ∈ writeFile fs p c' ↔ ((q, c) ∈ fs ∧ q ≠ p) ∨ (q = p ∧ c = c') := by
  simp [writeFile, mem_eraseFile]

/-- Deleting preserves path uniqueness. -/
theorem pathsNodup_eraseFile (fs : SeedFS) (p : FPath) (h : pathsNodup fs) :
    pathsNodup (eraseFile fs p) := by
  unfold pathsNodup at h ⊢
  unfold eraseFile
  exact List.Sublist.nodup (List.Sublist.map _ (List.filter_sublist fs)) h

/-- Writing at `p` preserves path uniqueness, because the overwritten
entry is removed first. -/
theorem pathsNodup_writeFile (fs : SeedFS) (p : FPath) (c : Content)
    (h : pathsNodup fs) : pathsNodup (writeFile fs p c) := by
  unfold pathsNodup writeFile
  rw [List.map_append, List.nodup_append]
  refine ⟨pathsNodup_eraseFile fs p h, List.nodup_singleton p, ?_⟩
  intro a ha hb
  rcases List.mem_map.mp ha with ⟨e, he, rfl⟩
  rcases List.mem_filter.mp he with ⟨_, hne⟩
  rcases List.mem_singleton.mp hb with rfl
  simp at hne

/-- Looking up in a concatenation takes the left result first. -/
theorem lookupFile_append (l1 l2 : SeedFS) (q : FPath) :
    lookupFile (l1 ++ l2) q =
      match lookupFile l1 q with
      | some c => some c
      | none => lookupFile l2 q := by
  induction l1 with
  | nil => rfl
  | cons e t ih =>
    rw [List.cons_append, lookupFile, lookupFile]
    by_cases hep : e.1 = q
    · rw [if_pos hep, if_pos hep]
    · rw [if_neg hep, if_neg hep]
      exact ih

/-- Looking up a deleted path fails. -/
theorem lookupFile_eraseFile_self (fs : SeedFS) (p : FPath) :
    lookupFile (eraseFile fs p) p = none := by
  induction fs with
  | nil => rfl
  | cons e t ih =>
    rw [eraseFile_cons]
    by_cases hep : e.1 = p
    · rw [if_pos hep]
      exact ih
    · rw [if_neg hep, lookupFile, if_neg hep]
      exact ih

/-- A lookup elsewhere is unaffected by a delete. -/
theorem lookupFile_eraseFile_other (fs : SeedFS) (p q : FPath) (h : q ≠ p) :
    lookupFile (eraseFile fs p) q = lookupFile fs q := by
  induction fs with
  | nil => rfl
  | cons e t ih =>
    rw [eraseFile_cons]
    by_cases hep : e.1 = p
    · rw [if_pos hep, lookupFile, if_neg (fun hq => h (by rw [← hq]; exact hep))]
      exact ih
    · rw [if_neg hep, lookupFile, lookupFile]
      by_cases heq : e.1 = q
      · rw [if_pos heq, if_pos heq]
      · rw [if_neg heq, if_neg heq]
        exact ih

/-- Looking up the path just written yields the written content. -/
theorem lookupFile_writeFile_self (fs : SeedFS) (p : FPath) (c : Content) :
    lookupFile (writeFile fs p c) p = some c := by
  rw [writeFile, lookupFile_append, lookupFile_eraseFile_self]
  rw [lookupFile, if_pos rfl]

/-- A lookup elsewhere is unaffected by a write. -/
theorem lookupFile_writeFile_other (fs : SeedFS) (p q : FPath) (c : Content)
    (h : q ≠ p) : lookupFile (writeFile fs p c) q = lookupFile fs q := by
  rw [writeFile, lookupFile_append, lookupFile_eraseFile_other fs p q h]
  cases hl : lookupFile fs q with
  | some c' => rfl
  | none =>
    simp only [lookupFile, if_neg (fun hq : p = q => h hq.symm)]

/-- Invariant induction for the cleaning walk. Over a remaining worklist
of paths drawn from the original snapshot `orig`, processing preserves:
unique paths; unprocessed paths still hold their original content
(clobbering a waiting top-level file can only rewrite it with the very
same content, by the no-aliasing hypothesis); every other entry sits at
the hash path of its own small content, which is an original content;
and every small original content already processed is present at its
hash path. -/
theorem cleanWalk_go (h : Content → String) (orig : SeedFS)
    (hndo : pathsNodup orig)
    (hInj : ∀ e1 ∈ orig, ∀ e2 ∈ orig, h e1.2 = h e2.2 → e1.2 = e2.2)
    (hAlias : ∀ e1 ∈ orig, ∀ e2 ∈ orig, e2.2.length ≤ CORPUS_ELEMENT_BYTES_LIMIT →
      e1.1 = [h e2.2] → e1.2 = e2.2) :
    ∀ (rem : List FPath) (g : SeedFS),
      rem.Nodup →
      (∀ q ∈ rem, ∃ c, (q, c) ∈ orig) →
      pathsNodup g →
      (∀ q ∈ rem, lookupFile g q = lookupFile orig q) →
      (∀ q c, (q, c) ∈ g →
        q ∈ rem ∨ (q = [h c] ∧ c.length ≤ CORPUS_ELEMENT_BYTES_LIMIT ∧
          ∃ p0, (p0, c) ∈ orig)) →
      (∀ p c, (p, c) ∈ orig → c.length ≤ CORPUS_ELEMENT_BYTES_LIMIT →
        p ∈ rem ∨ ([h c], c) ∈ g) →
      pathsNodup (rem.foldl (cleanStep h) g) ∧
      (∀ q c, (q, c) ∈ rem.foldl (cleanStep h) g →
        q = [h c] ∧ c.length ≤ CORPUS_ELEMENT_BYTES_LIMIT ∧
          ∃ p0, (p0, c) ∈ orig) ∧
      (∀ p c, (p, c) ∈ orig → c.length ≤ CORPUS_ELEMENT_BYTES_LIMIT →
        ([h c], c) ∈ rem.foldl (cleanStep h) g) := by
  intro rem
  induction rem with
  | nil =>
    intro g _ _ hndg _ hB hC
    refine ⟨hndg, ?_, ?_⟩
    · intro q c hqc
      rcases hB q c hqc with hq | hr
      · exact absurd hq (List.not_mem_nil q)
      · exact hr
    · intro p c hpc hsmall
      rcases hC p c hpc hsmall with hp | hg
      · exact absurd hp (List.not_mem_nil p)
      · exact hg
  | cons p rest ih =>
    intro g hndr hsub hndg hA hB hC
    obtain ⟨c0, hc0⟩ := hsub p (List.mem_cons_self p rest)
    have hlo : lookupFile orig p = some c0 := mem_lookupFile hndo hc0
    have hlg : lookupFile g p = some c0 := by
      rw [hA p (List.mem_cons_self p rest)]
      exact hlo
    have hrest_nd : rest.Nodup := (List.nodup_cons.mp hndr).2
    have hp_notin : p ∉ rest := (List.nodup_cons.mp hndr).1
    rw [List.foldl_cons]
    by_cases hbig : CORPUS_ELEMENT_BYTES_LIMIT < c0.length
    · have hstep : cleanStep h g p = eraseFile g p := by
        rw [cleanStep, hlg]
        show (if CORPUS_ELEMENT_BYTES_LIMIT < c0.length then eraseFile g p
          else moveFile g p [h c0]) = eraseFile g p
        rw [if_pos hbig]
      rw [hstep]
      apply ih (eraseFile g p) hrest_nd
        (fun q hq => hsub q (List.mem_cons_of_mem p hq))
        (pathsNodup_eraseFile g p hndg)
      · intro q hq
        have hqp : q ≠ p := fun he => hp_notin (he ▸ hq)
        rw [lookupFile_eraseFile_other g p q hqp]
        exact hA q (List.mem_cons_of_mem p hq)
      · intro q c hqc
        rw [mem_eraseFile] at hqc
        rcases hB q c hqc.1 with hq | hr
        · rcases List.mem_cons.mp hq with rfl | hq'
          · exact absurd rfl hqc.2
          · exact Or.inl hq'
        · exact Or.inr hr
      · intro p1 c hpc hsmall
        rcases hC p1 c hpc hsmall with hp1 | hg'
        · rcases List.mem_cons.mp hp1 with rfl | hp1'
          · exfalso
            have hcc : c = c0 := by
              have h1 := mem_lookupFile hndo hpc
              rw [hlo] at h1
              exact (Option.some.inj h1).symm
            rw [hcc] at hsmall
            exact absurd hsmall (not_le.mpr hbig)
          · exact Or.inl hp1'
        · right
          rw [mem_eraseFile]
          refine ⟨hg', ?_⟩
          intro he
          have h1 := mem_lookupFile hndg (he ▸ hg')
          rw [hlg] at h1
          have hcc : c = c0 := (Option.some.inj h1).symm
          rw [hcc] at hsmall
          exact absurd hsmall (not_le.mpr hbig)
    · have hsmall0 : c0.length ≤ CORPUS_ELEMENT_BYTES_LIMIT := not_lt.mp hbig
      have hstep : cleanStep h g p = writeFile (eraseFile g p) [h c0] c0 := by
        rw [cleanStep, hlg]
        show (if CORPUS_ELEMENT_BYTES_LIMIT < c0.length then eraseFile g p
          else moveFile g p [h c0]) = writeFile (eraseFile g p) [h c0] c0
        rw [if_neg hbig, moveFile, hlg]
      rw [hstep]
      apply ih (writeFile (eraseFile g p) [h c0] c0) hrest_nd
        (fun q hq => hsub q (List.mem_cons_of_mem p hq))
        (pathsNodup_writeFile _ _ _ (pathsNodup_eraseFile g p hndg))
      · intro q hq
        have hqp : q ≠ p := fun he => hp_notin (he ▸ hq)
        by_cases hqh : q = [h c0]
        · subst hqh
          rw [lookupFile_writeFile_self]
          obtain ⟨cq, hcq⟩ := hsub _ (List.mem_cons_of_mem p hq)
          have hcq0 : cq = c0 := hAlias ([h c0], cq) hcq (p, c0) hc0 hsmall0 rfl
          rw [mem_lookupFile hndo hcq, hcq0]
        · rw [lookupFile_writeFile_other _ _ _ _ hqh,
            lookupFile_eraseFile_other _ _ _ hqp]
          exact hA q (List.mem_cons_of_mem p hq)
      · intro q c hqc
        rw [mem_writeFile] at hqc
        rcases hqc with ⟨hqe, _⟩ | ⟨rfl, rfl⟩
        · rw [mem_eraseFile] at hqe
          rcases hB q c hqe.1 with hq | hr
          · rcases List.mem_cons.mp hq with rfl | hq'
            · exact absurd rfl hqe.2
            · exact Or.inl hq'
          · exact Or.inr hr
        · exact Or.inr ⟨rfl, hsmall0, ⟨p, hc0⟩⟩
      · intro p1 c hpc hsmall
        rcases hC p1 c hpc hsmall with hp1 | hg'
        · rcases List.mem_cons.mp hp1 with rfl | hp1'
          · have hcc : c = c0 := by
              have h1 := mem_lookupFile hndo hpc
              rw [hlo] at h1
              exact (Option.some.inj h1).symm
            subst hcc
            right
            rw [mem_writeFile]
            exact Or.inr ⟨rfl, rfl⟩
          · exact Or.inl hp1'
        · right
          by_cases hch : h c = h c0
          · have hcc : c = c0 := hInj (p1, c) hpc (p, c0) hc0 hch
            subst hcc
            rw [mem_writeFile]
            exact Or.inr ⟨rfl, rfl⟩
          · rw [mem_writeFile]
            left
            constructor
            · rw [mem_eraseFile]
              refine ⟨hg', ?_⟩
              intro he
              have h1 := mem_lookupFile hndg (he ▸ hg')
              rw [hlg] at h1
              exact hch (by rw [Option.some.inj h1])
            · intro he
              injection he with hhead htail
              exact hch hhead

/-- The walk order is a permutation of the original paths: every original
file is processed exactly once. -/
theorem walkOrder_perm (fs : SeedFS) :
    (walkOrder fs).Perm (fs.map (fun e => e.1)) := by
  unfold walkOrder
  rw [← List.map_append]
  exact (List.filter_append_perm (fun e => e.1.length == 1) fs).map (fun e => e.1)

/-- Claim C6, amended: on an existing seed directory with the no-seeds
override unset, if the hash is injective on the contents present, no seed
file's top-level name aliases the hash of a different seed's content, no
file path extends another, and no hash destination names a directory,
then after `_clean_seed_corpus`: paths are unique, every remaining file
sits at the top-level path named by the hash of its content and is within
the size limit (so any two seeds with identical content leave exactly one
file, and every oversized seed is gone), and every seed content within
the limit survives at its hash path. The aliasing proviso is what the
counterexample `clean_seed_corpus_loses_small_seed` violates: without it
`shutil.move` can silently overwrite a not-yet-processed small seed. -/
theorem clean_seed_corpus_prepared (h : Content → String) (fs : SeedFS)
    (hnd : pathsNodup fs)
    (hInj : ∀ e1 ∈ fs, ∀ e2 ∈ fs, h e1.2 = h e2.2 → e1.2 = e2.2)
    (hAlias : ∀ e1 ∈ fs, ∀ e2 ∈ fs, e2.2.length ≤ CORPUS_ELEMENT_BYTES_LIMIT →
      e1.1 = [h e2.2] → e1.2 = e2.2)
    (hPrefixFree : ∀ e1 ∈ fs, ∀ e2 ∈ fs, e1.1 <+: e2.1 → e1.1 = e2.1)
    (hDirFree : ∀ e1 ∈ fs, e1.2.length ≤ CORPUS_ELEMENT_BYTES_LIMIT →
      ∀ e2 ∈ fs, [h e1.2] <+: e2.1 → e2.1 = [h e1.2]) :
    pathsNodup (cleanWalk h fs) ∧
    (∀ e ∈ cleanWalk h fs, e.1 = [h e.2] ∧ e.2.length ≤ CORPUS_ELEMENT_BYTES_LIMIT) ∧
    (∀ e ∈ fs, e.2.length ≤ CORPUS_ELEMENT_BYTES_LIMIT →
      ([h e.2], e.2) ∈ cleanWalk h fs) := by
  have hrnd : (walkOrder fs).Nodup := (walkOrder_perm fs).nodup_iff.mpr hnd
  have hsub : ∀ q ∈ walkOrder fs, ∃ c, (q, c) ∈ fs := by
    intro q hq
    rcases List.mem_map.mp ((walkOrder_perm fs).mem_iff.mp hq) with ⟨e, he, rfl⟩
    exact ⟨e.2, he⟩
  have hB : ∀ q c, (q, c) ∈ fs →
      q ∈ walkOrder fs ∨ (q = [h c] ∧ c.length ≤ CORPUS_ELEMENT_BYTES_LIMIT ∧
        ∃ p0, (p0, c) ∈ fs) := by
    intro q c hqc
    exact Or.inl ((walkOrder_perm fs).mem_iff.mpr (List.mem_map.mpr ⟨(q, c), hqc, rfl⟩))
  have hC : ∀ p c, (p, c) ∈ fs → c.length ≤ CORPUS_ELEMENT_BYTES_LIMIT →
      p ∈ walkOrder fs ∨ ([h c], c) ∈ fs := by
    intro p c hpc _
    exact Or.inl ((walkOrder_perm fs).mem_iff.mpr (List.mem_map.mpr ⟨(p, c), hpc, rfl⟩))
  obtain ⟨h1, h2, h3⟩ := cleanWalk_go h fs hnd hInj hAlias (walkOrder fs) fs
    hrnd hsub hnd (fun q _ => rfl) hB hC
  refine ⟨h1, ?_, ?_⟩
  · intro e he
    have hthis := h2 e.1 e.2 he
    exact ⟨hthis.1, hthis.2.1⟩
  · intro e he hsm
    exact h3 e.1 e.2 he hsm

/-- Claim C6 as stated is false on the code: in `seedFsClobber` both
files are within the size limit, yet after cleaning no file with the
content of seed `x` remains - moving `a` to its hash name `x` silently
overwrote the unprocessed seed `x`. -/
theorem clean_seed_corpus_loses_small_seed :
    ((["x"] : FPath), ([2] : Content)) ∈ seedFsClobber ∧
    ([2] : Content).length ≤ CORPUS_ELEMENT_BYTES_LIMIT ∧
    (∀ e ∈ cleanWalk hashClobber seedFsClobber, e.2 ≠ ([2] : Content)) := by decide

/-- Witness for the amended seed-preparation theorem on the concrete
corpus `seedFsGood` with the constant hash `hashGood`. -/
theorem clean_seed_corpus_prepared_witness :
    (pathsNodup seedFsGood ∧
     (∀ e1 ∈ seedFsGood, ∀ e2 ∈ seedFsGood,
        hashGood e1.2 = hashGood e2.2 → e1.2 = e2.2) ∧
     (∀ e1 ∈ seedFsGood, ∀ e2 ∈ seedFsGood,
        e2.2.length ≤ CORPUS_ELEMENT_BYTES_LIMIT → e1.1 = [hashGood e2.2] →
          e1.2 = e2.2) ∧
     (∀ e1 ∈ seedFsGood, ∀ e2 ∈ seedFsGood, e1.1 <+: e2.1 → e1.1 = e2.1) ∧
     (∀ e1 ∈ seedFsGood, e1.2.length ≤ CORPUS_ELEMENT_BYTES_LIMIT →
        ∀ e2 ∈ seedFsGood, [hashGood e1.2] <+: e2.1 → e2.1 = [hashGood e1.2])) ∧
    (pathsNodup (cleanWalk hashGood seedFsGood) ∧
     (∀ e ∈ cleanWalk hashGood seedFsGood,
        e.1 = [hashGood e.2] ∧ e.2.length ≤ CORPUS_ELEMENT_BYTES_LIMIT) ∧
     (∀ e ∈ seedFsGood, e.2.length ≤ CORPUS_ELEMENT_BYTES_LIMIT →
        ([hashGood e.2], e.2) ∈ cleanWalk hashGood seedFsGood)) :=
  ⟨⟨by unfold pathsNodup; decide, by decide, by decide, by decide, by decide⟩,
   clean_seed_corpus_prepared hashGood seedFsGood (by unfold pathsNodup; decide)
     (by decide) (by decide) (by decide) (by decide)⟩

/-- Claim C10: on a seed-directory path that does not exist,
`_clean_seed_corpus` returns before looking at the no-seeds override and
changes nothing - in particular no empty seed directory is created even
when the override is set. -/
theorem clean_seed_corpus_missing_dir_noop (noSeeds : Bool) (h : Content → String) :
    clean_seed_corpus noSeeds h none = none := rfl

/-- Claim C4: an exception raised while archiving-and-uploading the
corpus delta, or while copying the results directory - each step first
retried `NUM_RETRIES` (3) times with the fixed `RETRY_DELAY` (3 second)
delay - is caught inside `do_sync` and logged with the current cycle
number, and `do_sync` never propagates an exception, so the sync loop
and the fuzz process continue; an operation failing on every attempt
fails the retry wrapper after 3 attempts with two 3-second sleeps in
between. -/
theorem do_sync_isolates_failures (cycle : Nat)
    (archiveOp resultsOp : Nat → Except String Unit)
    (hfail : (archive_and_save_corpus archiveOp).1.isOk = false ∨
      ((archive_and_save_corpus archiveOp).1 = Except.ok () ∧
       (save_results resultsOp).1.isOk = false)) :
    (do_sync cycle archiveOp resultsOp).outcome = Except.ok () ∧
    (do_sync cycle archiveOp resultsOp).logs = [LogEvent.syncFailed cycle] ∧
    NUM_RETRIES = 3 ∧ RETRY_DELAY = 3 ∧
    (∀ op : Nat → Except String Unit, (∀ k, (op k).isOk = false) →
      (retry_wrap NUM_RETRIES RETRY_DELAY op).1.isOk = false ∧
      (retry_wrap NUM_RETRIES RETRY_DELAY op).2 = (NUM_RETRIES - 1) * RETRY_DELAY) := by
  have hretry : ∀ op : Nat → Except String Unit, (∀ k, (op k).isOk = false) →
      (retry_wrap NUM_RETRIES RETRY_DELAY op).1.isOk = false ∧
      (retry_wrap NUM_RETRIES RETRY_DELAY op).2 = (NUM_RETRIES - 1) * RETRY_DELAY := by
    intro op hop
    have h0 := hop 0
    have h1 := hop 1
    have h2 := hop 2
    cases he0 : op 0 with
    | ok u => rw [he0] at h0; simp [Except.isOk, Except.toBool] at h0
    | error e0 =>
      cases he1 : op 1 with
      | ok u => rw [he1] at h1; simp [Except.isOk, Except.toBool] at h1
      | error e1 =>
        cases he2 : op 2 with
        | ok u => rw [he2] at h2; simp [Except.isOk, Except.toBool] at h2
        | error e2 =>
          refine ⟨?_, ?_⟩ <;>
            simp [retry_wrap, NUM_RETRIES, RETRY_DELAY, retryAux, he0, he1, he2,
              Except.isOk, Except.toBool]
  have hsync : (do_sync cycle archiveOp resultsOp).outcome = Except.ok () ∧
      (do_sync cycle archiveOp resultsOp).logs = [LogEvent.syncFailed cycle] := by
    rcases hfail with hfa | ⟨hok, hfr⟩
    · cases ha : (archive_and_save_corpus archiveOp).1 with
      | ok u => rw [ha] at hfa; simp [Except.isOk, Except.toBool] at hfa
      | error e => constructor <;> simp [do_sync, ha]
    · cases hr : (save_results resultsOp).1 with
      | ok u => rw [hr] at hfr; simp [Except.isOk, Except.toBool] at hfr
      | error e => constructor <;> simp [do_sync, hok, hr]
  exact ⟨hsync.1, hsync.2, rfl, rfl, hretry⟩

/-- Witness for the sync-failure isolation theorem: the archive step
fails on every attempt. -/
theorem do_sync_isolates_failures_witness :
    ((archive_and_save_corpus (fun _ => Except.error "boom")).1.isOk = false ∨
      ((archive_and_save_corpus (fun _ => Except.error "boom")).1 = Except.ok () ∧
       (save_results (fun _ => Except.ok ())).1.isOk = false)) ∧
    ((do_sync 5 (fun _ => Except.error "boom") (fun _ => Except.ok ())).outcome =
        Except.ok () ∧
     (do_sync 5 (fun _ => Except.error "boom") (fun _ => Except.ok ())).logs =
        [LogEvent.syncFailed 5] ∧
     NUM_RETRIES = 3 ∧ RETRY_DELAY = 3 ∧
     (∀ op : Nat → Except String Unit, (∀ k, (op k).isOk = false) →
       (retry_wrap NUM_RETRIES RETRY_DELAY op).1.isOk = false ∧
       (retry_wrap NUM_RETRIES RETRY_DELAY op).2 = (NUM_RETRIES - 1) * RETRY_DELAY)) :=
  ⟨Or.inl (by decide),
   do_sync_isolates_failures 5 (fun _ => Except.error "boom") (fun _ => Except.ok ())
     (Or.inl (by decide))⟩

/-- Claim C5: a nonzero fuzz-process exit sets the errored flag without
raising, the supervisor performs the final synchronisation regardless of
the fuzz outcome, the process exit code is then 1, and the exit code is
0 exactly when no unexpected exception occurred and the fuzz process did
not exit with nonzero status. -/
theorem nonzero_exit_handling :
    (run_fuzzer true true).erroredOut = true ∧
    (∀ (bf pn : Bool) (n : Nat),
      TrialEvent.finalSync ∈ conduct_trial_events bf pn n) ∧
    runnerMain true true none = Except.ok 1 ∧
    (∀ (bf pn : Bool) (exc : Option String),
      runnerMain bf pn exc = Except.ok 0 ↔ exc = none ∧ ¬(bf = true ∧ pn = true)) := by
  refine ⟨rfl, ?_, rfl, ?_⟩
  · intro bf pn n
    simp [conduct_trial_events]
  · intro bf pn exc
    cases exc with
    | some e => simp [runnerMain]
    | none => cases bf <;> cases pn <;> simp [runnerMain, run_fuzzer]

/-- Claim C9: with the target binary unresolvable, `run_fuzzer` logs the
failure, launches nothing, and leaves the errored flag unset, so the
trial's reported outcome stays success (exit code 0) - unlike a nonzero
fuzz-process exit. -/
theorem missing_binary_is_success (pn : Bool) :
    (run_fuzzer false pn).launched = false ∧
    (run_fuzzer false pn).erroredOut = false ∧
    (run_fuzzer false pn).loggedBinaryMissing = true ∧
    runnerMain false pn none = Except.ok 0 :=
  ⟨rfl, rfl, rfl, rfl⟩

/-- Claim C7: the computed sleep is never negative; the first sleep (no
previous sync) equals the snapshot interval; a subsequent sleep equals
the clamped `last + interval - now`; and when the previous cycle overran
the interval the sleep is exactly 0 and the warning is recorded. -/
theorem sleep_until_next_sync_clamped (snapshotSeconds : Int)
    (hpos : 0 ≤ snapshotSeconds) (lastSyncTime : Option Int) (now : Int) :
    0 ≤ (sleep_until_next_sync snapshotSeconds lastSyncTime now).1 ∧
    sleep_until_next_sync snapshotSeconds none now = (snapshotSeconds, false) ∧
    (∀ t : Int, lastSyncTime = some t →
      (sleep_until_next_sync snapshotSeconds lastSyncTime now).1 =
        max 0 (t + snapshotSeconds - now)) ∧
    (∀ t : Int, lastSyncTime = some t → t + snapshotSeconds < now →
      sleep_until_next_sync snapshotSeconds lastSyncTime now = (0, true)) := by
  refine ⟨?_, rfl, ?_, ?_⟩
  · cases lastSyncTime with
    | none => exact hpos
    | some t =>
      simp only [sleep_until_next_sync]
      by_cases hlt : t + snapshotSeconds - now < 0
      · rw [if_pos hlt]
      · rw [if_neg hlt]
        exact not_lt.mp hlt
  · intro t ht
    subst ht
    simp only [sleep_until_next_sync]
    by_cases hlt : t + snapshotSeconds - now < 0
    · rw [if_pos hlt]
      exact (max_eq_left (le_of_lt hlt)).symm
    · rw [if_neg hlt]
      exact (max_eq_right (not_lt.mp hlt)).symm
  · intro t ht hover
    subst ht
    have hlt : t + snapshotSeconds - now < 0 := by omega
    simp only [sleep_until_next_sync]
    rw [if_pos hlt]

/-- Witness for the sleep-clamping theorem: interval 10, previous sync
at 0, current time 15 - an overrun cycle. -/
theorem sleep_until_next_sync_clamped_witness :
    (0 : Int) ≤ 10 ∧
    (0 ≤ (sleep_until_next_sync 10 (some 0) 15).1 ∧
     sleep_until_next_sync 10 none 15 = (10, false) ∧
     (∀ t : Int, (some 0 : Option Int) = some t →
       (sleep_until_next_sync 10 (some 0) 15).1 = max 0 (t + 10 - 15)) ∧
     (∀ t : Int, (some 0 : Option Int) = some t → t + 10 < 15 →
       sleep_until_next_sync 10 (some 0) 15 = (0, true))) :=
  ⟨by decide, sleep_until_next_sync_clamped 10 (by decide) (some 0) 15⟩
